import Mathlib

/-!
A shallow embedding of `src/format.rs` from the `datetime` crate: the
`DateFormat` template parser and formatter, together with proofs of the
specification's claims about them.

Strings are modelled as lists of characters.  Positions are UTF-8 byte
offsets, exactly as produced by Rust's `char_indices`, and the literal
fields are built by byte-offset slicing of the original input, exactly as
`input.slice(pos, new_pos)` / `input.slice_from(pos)` do in the source.
-/

namespace Datetime

/-- Modelled from the spec: the 12-case month enumeration of the external
`local` module; the case names are the ones `long_month_name` in
`src/format.rs` matches on. -/
inductive Month where
  | January | February | March | April | May | June
  | July | August | September | October | November | December
deriving DecidableEq

/-- Modelled from the spec: the 7-case weekday enumeration of the external
`local` module; the case names are the ones `long_day_name` in
`src/format.rs` matches on. -/
inductive Weekday where
  | Monday | Tuesday | Wednesday | Thursday | Friday | Saturday | Sunday
deriving DecidableEq

/-- Modelled from the spec: the date value surface consumed from the
`local` module collaborator via the `DatePiece` accessors used by
`src/format.rs` (full year, year-of-century, month, day-of-month,
weekday). -/
structure LocalDate where
  year : Int
  year_of_century : Int
  month : Month
  day : Nat
  weekday : Weekday

/-- The `Field` enum of `src/format.rs`; `Literal` borrows a slice of the
input, modelled here as a list of characters. -/
inductive Field where
  | Literal (s : List Char)
  | Year
  | YearOfCentury
  | MonthName (long : Bool)
  | Day
  | WeekdayName (long : Bool)
deriving DecidableEq

/-- The `FormatError` enum of `src/format.rs`; every variant carries the
0-based byte offset of the offending character. -/
inductive FormatError where
  | InvalidChar (c : Char) (afterColon : Bool) (pos : Nat)
  | OpenCurlyBrace (pos : Nat)
  | CloseCurlyBrace (pos : Nat)
  | MissingField (pos : Nat)
deriving DecidableEq

/-- The `DateFormat` struct of `src/format.rs`: an ordered sequence of
fields. -/
structure DateFormat where
  fields : List Field
deriving DecidableEq

/-- The `long_month_name` function of `src/format.rs`. -/
def long_month_name : Month → List Char
  | .January => "January".data
  | .February => "February".data
  | .March => "March".data
  | .April => "April".data
  | .May => "May".data
  | .June => "June".data
  | .July => "July".data
  | .August => "August".data
  | .September => "September".data
  | .October => "October".data
  | .November => "November".data
  | .December => "December".data

/-- The `short_month_name` function of `src/format.rs`. -/
def short_month_name : Month → List Char
  | .January => "Jan".data
  | .February => "Feb".data
  | .March => "Mar".data
  | .April => "Apr".data
  | .May => "May".data
  | .June => "Jun".data
  | .July => "Jul".data
  | .August => "Aug".data
  | .September => "Sep".data
  | .October => "Oct".data
  | .November => "Nov".data
  | .December => "Dec".data

/-- The `long_day_name` function of `src/format.rs`. -/
def long_day_name : Weekday → List Char
  | .Monday => "Monday".data
  | .Tuesday => "Tuesday".data
  | .Wednesday => "Wednesday".data
  | .Thursday => "Thursday".data
  | .Friday => "Friday".data
  | .Saturday => "Saturday".data
  | .Sunday => "Sunday".data

/-- The `short_day_name` function of `src/format.rs`. -/
def short_day_name : Weekday → List Char
  | .Monday => "Mon".data
  | .Tuesday => "Tue".data
  | .Wednesday => "Wed".data
  | .Thursday => "Thu".data
  | .Friday => "Fri".data
  | .Saturday => "Sat".data
  | .Sunday => "Sun".data

/-- `Field::format` from `src/format.rs`: the text one field contributes to
the output buffer (numbers are written in decimal exactly as Rust's
`write!("…", n)` does). -/
def Field.format (f : Field) (when : LocalDate) : List Char :=
  match f with
  | .Literal s => s
  | .Year => (toString when.year).data
  | .YearOfCentury => (toString when.year_of_century).data
  | .MonthName true => long_month_name when.month
  | .MonthName false => short_month_name when.month
  | .Day => (toString when.day).data
  | .WeekdayName true => long_day_name when.weekday
  | .WeekdayName false => short_day_name when.weekday

/-- `DateFormat::format` from `src/format.rs`: render every field in order
into a buffer. -/
def DateFormat.format (df : DateFormat) (when : LocalDate) : List Char :=
  df.fields.foldl (fun buf bit => buf ++ bit.format when) []

/-- The stream of `(byte offset, character)` pairs produced by Rust's
`char_indices`, starting from offset `pos`. -/
def charIndicesFrom (pos : Nat) : List Char → List (Nat × Char)
  | [] => []
  | c :: cs => (pos, c) :: charIndicesFrom (pos + c.utf8Size) cs

/-- `char_indices` of a whole input: byte offsets starting at 0. -/
def charIndices (s : List Char) : List (Nat × Char) :=
  charIndicesFrom 0 s

/-- Byte-offset slicing, `input.slice(a, b)` of the source: the characters
of `s` whose starting byte offset lies in `[a, b)`. -/
def byteSlice (s : List Char) (a b : Nat) : List Char :=
  ((charIndices s).filter (fun x => decide (a ≤ x.1) && decide (x.1 < b))).map Prod.snd

/-- Byte-offset slicing to the end, `input.slice_from(a)` of the source. -/
def byteSliceFrom (s : List Char) (a : Nat) : List Char :=
  ((charIndices s).filter (fun x => decide (a ≤ x.1))).map Prod.snd

/-- The directive-kind table inside `parse_a_thing` of `src/format.rs`:
which field a character after `:` selects. -/
def directiveField (c : Char) : Option Field :=
  if c = 'Y' then some .Year
  else if c = 'y' then some .YearOfCentury
  else if c = 'M' then some (.MonthName true)
  else if c = 'D' then some .Day
  else if c = 'E' then some (.WeekdayName true)
  else none

/-- `FormatParser::parse_a_thing` from `src/format.rs`, entered just after
an opening brace at byte offset `open_brace_position`.  The iterator is the
remaining `(offset, char)` stream; `bit` is the mutable `bit` local of the
source (the directive seen so far).  On success it returns the parsed field
together with the rest of the stream.  The source's `args` local
(`Arguments::empty()`) is never read or written by the loop and is omitted
here. -/
def parse_a_thing (open_brace_position : Nat) :
    Option Field → List (Nat × Char) → Except FormatError (Field × List (Nat × Char))
  | _, [] => .error (.OpenCurlyBrace open_brace_position)
  | bit, (pos, c) :: rest =>
    if c = ':' then
      match rest with
      | [] => .error (.OpenCurlyBrace open_brace_position)
      | (pos2, c2) :: rest2 =>
        match directiveField c2 with
        | some bitlet => parse_a_thing open_brace_position (some bitlet) rest2
        | none => .error (.InvalidChar c2 true pos2)
    else if c = '}' then
      match bit with
      | some b => .ok (b, rest)
      | none => .error (.MissingField open_brace_position)
    else
      .error (.InvalidChar c false pos)

/-- Total UTF-8 byte length of a character list. -/
def utf8Len (s : List Char) : Nat := (s.map Char.utf8Size).sum

/-- A field is a literal. -/
def Field.isLit (f : Field) : Prop := ∃ s, f = Field.Literal s

/-- The literal invariant of the spec: a literal field is non-empty and
never contains a brace; non-literal fields satisfy it vacuously. -/
def Field.literalSound : Field → Prop
  | Field.Literal s => s ≠ [] ∧ '{' ∉ s ∧ '}' ∉ s
  | _ => True

/-- Name fields produced by the grammar carry the long-form flag. -/
def Field.longFormOnly : Field → Prop
  | Field.MonthName long => long = true
  | Field.WeekdayName long => long = true
  | _ => True

/-- No two adjacent fields of the sequence are both literals. -/
def noAdjacentLiterals (l : List Field) : Prop :=
  List.Chain' (fun a b => ¬(a.isLit ∧ b.isLit)) l

/-- Modelled from the spec: the fixed 12-entry month-name table (long and
short English forms), against which the source's `long_month_name` and
`short_month_name` matches are checked. -/
def monthNameTable : List (Month × List Char × List Char) :=
  [ (.January, "January".data, "Jan".data)
  , (.February, "February".data, "Feb".data)
  , (.March, "March".data, "Mar".data)
  , (.April, "April".data, "Apr".data)
  , (.May, "May".data, "May".data)
  , (.June, "June".data, "Jun".data)
  , (.July, "July".data, "Jul".data)
  , (.August, "August".data, "Aug".data)
  , (.September, "September".data, "Sep".data)
  , (.October, "October".data, "Oct".data)
  , (.November, "November".data, "Nov".data)
  , (.December, "December".data, "Dec".data) ]

/-- Modelled from the spec: the fixed 7-entry weekday-name table (long and
short English forms), against which the source's `long_day_name` and
`short_day_name` matches are checked. -/
def dayNameTable : List (Weekday × List Char × List Char) :=
  [ (.Monday, "Monday".data, "Mon".data)
  , (.Tuesday, "Tuesday".data, "Tue".data)
  , (.Wednesday, "Wednesday".data, "Wed".data)
  , (.Thursday, "Thursday".data, "Thu".data)
  , (.Friday, "Friday".data, "Fri".data)
  , (.Saturday, "Saturday".data, "Sat".data)
  , (.Sunday, "Sunday".data, "Sun".data) ]

/-- The loop invariant of `parse_format_string`: the unprocessed stream
`l` is a suffix of the whole index stream and, when a literal run is
pending, the processed part ends with that run — a non-empty block of
non-brace characters whose first offset is the anchor. -/
def anchorOk (input : List Char) (anchor : Option Nat) (l : List (Nat × Char)) : Prop :=
  match anchor with
  | none => ∃ A, charIndices input = A ++ l
  | some p => ∃ A c0 M, charIndices input = A ++ ((p, c0) :: M) ++ l
      ∧ (∀ x ∈ (p, c0) :: M, x.2 ≠ '{' ∧ x.2 ≠ '}')

/-- Encoding of a run of colon-plus-kind groups as an index stream, as
they appear between the braces of a directive. -/
def groupsEnc (gs : List (Nat × Nat × Char)) : List (Nat × Char) :=
  (gs.map (fun g => [(g.1, ':'), (g.2.1, g.2.2)])).flatten

/-- One-step unfolding of `parse_a_thing` on a non-empty stream. -/
theorem parse_a_thing_cons (op pos : Nat) (bit : Option Field) (c : Char)
    (rest : List (Nat × Char)) :
    parse_a_thing op bit ((pos, c) :: rest) =
      if c = ':' then
        match rest with
        | [] => .error (.OpenCurlyBrace op)
        | (pos2, c2) :: rest2 =>
          match directiveField c2 with
          | some bitlet => parse_a_thing op (some bitlet) rest2
          | none => .error (.InvalidChar c2 true pos2)
      else if c = '}' then
        match bit with
        | some b => .ok (b, rest)
        | none => .error (.MissingField op)
      else
        .error (.InvalidChar c false pos) := by
  cases bit <;> cases rest <;> rfl

/-- Directive parsing only consumes characters: on success the returned
stream is a proper suffix of the one passed in. -/
theorem parse_a_thing_rest (op : Nat) (bit0 : Option Field) (l0 : List (Nat × Char)) :
    ∀ f rest, parse_a_thing op bit0 l0 = .ok (f, rest) →
      rest.length < l0.length ∧ rest <:+ l0 := by
  induction bit0, l0 using parse_a_thing.induct op with
  | case1 x => intro f rest h; simp [parse_a_thing] at h
  | case2 bit pos => intro f rest h; simp [parse_a_thing] at h
  | case3 bit pos pos2 c2 rest2 bitlet hdir ih =>
    intro f rest h
    simp only [parse_a_thing, hdir, reduceIte] at h
    obtain ⟨h1, h2⟩ := ih f rest h
    refine ⟨by simp; omega, h2.trans ?_⟩
    exact (List.suffix_cons _ _).trans (List.suffix_cons _ _)
  | case4 bit pos pos2 c2 rest2 hdir =>
    intro f rest h
    simp only [parse_a_thing, hdir, reduceIte] at h
    exact absurd h (by simp)
  | case5 pos rest1 bitlet hne =>
    intro f rest h
    rw [parse_a_thing_cons] at h
    simp at h
    rcases h with ⟨rfl, rfl⟩
    exact ⟨by simp, List.suffix_cons _ _⟩
  | case6 pos rest1 hne =>
    intro f rest h
    rw [parse_a_thing_cons] at h
    simp at h
  | case7 bit pos c rest1 hc hbr =>
    intro f rest h
    rw [parse_a_thing_cons, if_neg hc, if_neg hbr] at h
    exact absurd h (by simp)

/-- `FormatParser::parse_format_string` from `src/format.rs`.  `anchor`
marks the byte offset where the pending literal run started (if any),
`fields` is the accumulator vector, and the list is the remaining
`(offset, char)` stream. -/
def parse_format_string (input : List Char) :
    Option Nat → List Field → List (Nat × Char) → Except FormatError (List Field)
  | anchor, fields, [] =>
    match anchor with
    | some pos => .ok (fields ++ [Field.Literal (byteSliceFrom input pos)])
    | none => .ok fields
  | anchor, fields, (new_pos, c) :: rest =>
    if c = '{' then
      let fields2 :=
        match anchor with
        | some pos => fields ++ [Field.Literal (byteSlice input pos new_pos)]
        | none => fields
      match h : parse_a_thing new_pos none rest with
      | .error e => .error e
      | .ok (field, rest2) => parse_format_string input none (fields2 ++ [field]) rest2
    else if c = '}' then
      .error (.CloseCurlyBrace new_pos)
    else
      parse_format_string input (some (anchor.getD new_pos)) fields rest
termination_by _ _ l => l.length
decreasing_by
  · have := (parse_a_thing_rest new_pos none rest field rest2 h).1
    simp
    omega
  · simp

/-- `DateFormat::parse` from `src/format.rs`: run the parser over the
`char_indices` stream of the input with an empty field vector. -/
def DateFormat.parse (input : List Char) : Except FormatError DateFormat :=
  match parse_format_string input none [] (charIndices input) with
  | .error e => .error e
  | .ok fields => .ok { fields := fields }

/-- Folding the render step over a field list appends the concatenation of
the individual renderings to the buffer. -/
theorem format_foldl_eq (when : LocalDate) :
    ∀ (l : List Field) (acc : List Char),
      l.foldl (fun buf bit => buf ++ bit.format when) acc
        = acc ++ (l.map (fun f => f.format when)).flatten := by
  intro l
  induction l with
  | nil => intro acc; simp
  | cons x xs ih => intro acc; simp [ih]

theorem charIndicesFrom_map_snd (n : Nat) (s : List Char) :
    (charIndicesFrom n s).map Prod.snd = s := by
  induction s generalizing n with
  | nil => rfl
  | cons c cs ih => simp [charIndicesFrom, ih]

theorem mem_charIndicesFrom_bound (s : List Char) :
    ∀ (n : Nat), ∀ x ∈ charIndicesFrom n s, n ≤ x.1 ∧ x.1 < n + utf8Len s := by
  induction s with
  | nil => simp [charIndicesFrom]
  | cons c cs ih =>
    intro n x hx
    have hpos := Char.utf8Size_pos c
    have hlen : utf8Len (c :: cs) = c.utf8Size + utf8Len cs := by
      simp [utf8Len]
    rcases hx with _ | hx
    · constructor
      · exact le_refl n
      · omega
    · rename_i hmem
      have := ih (n + c.utf8Size) x hmem
      constructor <;> omega

theorem charIndicesFrom_pairwise (s : List Char) :
    ∀ (n : Nat), (charIndicesFrom n s).Pairwise (fun a b => a.1 < b.1) := by
  induction s with
  | nil => simp [charIndicesFrom]
  | cons c cs ih =>
    intro n
    have hpos := Char.utf8Size_pos c
    refine List.Pairwise.cons ?_ (ih (n + c.utf8Size))
    intro x hx
    have := (mem_charIndicesFrom_bound cs (n + c.utf8Size) x hx).1
    simp only []
    omega

/-- The global ordering fact: the offsets of `char_indices` are strictly
increasing. -/
theorem charIndices_pairwise (s : List Char) :
    (charIndices s).Pairwise (fun a b => a.1 < b.1) :=
  charIndicesFrom_pairwise s 0

/-- Slicing between two offsets picks out exactly the middle block of any
offset-ordered three-way decomposition of `char_indices`. -/
theorem byteSlice_of_decomp (s : List Char) (A C R : List (Nat × Char)) (a b : Nat)
    (hd : charIndices s = A ++ C ++ R)
    (hA : ∀ x ∈ A, x.1 < a) (hC : ∀ x ∈ C, a ≤ x.1 ∧ x.1 < b)
    (hR : ∀ x ∈ R, b ≤ x.1) :
    byteSlice s a b = C.map Prod.snd := by
  unfold byteSlice
  rw [hd, List.filter_append, List.filter_append]
  have h1 : A.filter (fun x => decide (a ≤ x.1) && decide (x.1 < b)) = [] := by
    rw [List.filter_eq_nil_iff]
    intro x hx
    have := hA x hx
    simp
    omega
  have h2 : C.filter (fun x => decide (a ≤ x.1) && decide (x.1 < b)) = C := by
    rw [List.filter_eq_self]
    intro x hx
    have := hC x hx
    simp
    omega
  have h3 : R.filter (fun x => decide (a ≤ x.1) && decide (x.1 < b)) = [] := by
    rw [List.filter_eq_nil_iff]
    intro x hx
    have := hR x hx
    simp
    omega
  rw [h1, h2, h3]
  simp

/-- Slicing from an offset to the end picks out exactly the tail block of
any offset-ordered two-way decomposition of `char_indices`. -/
theorem byteSliceFrom_of_decomp (s : List Char) (A C : List (Nat × Char)) (a : Nat)
    (hd : charIndices s = A ++ C)
    (hA : ∀ x ∈ A, x.1 < a) (hC : ∀ x ∈ C, a ≤ x.1) :
    byteSliceFrom s a = C.map Prod.snd := by
  unfold byteSliceFrom
  rw [hd, List.filter_append]
  have h1 : A.filter (fun x => decide (a ≤ x.1)) = [] := by
    rw [List.filter_eq_nil_iff]
    intro x hx
    have := hA x hx
    simp
    omega
  have h2 : C.filter (fun x => decide (a ≤ x.1)) = C := by
    rw [List.filter_eq_self]
    intro x hx
    have := hC x hx
    simp
    omega
  rw [h1, h2]
  simp

/-- Slicing a whole input from offset 0 returns the input unchanged. -/
theorem byteSliceFrom_zero (s : List Char) : byteSliceFrom s 0 = s := by
  have := byteSliceFrom_of_decomp s [] (charIndices s) 0 (by simp)
    (by simp) (by simp)
  rw [this]
  exact charIndicesFrom_map_snd 0 s

/-- Every field the directive table can produce is a sound non-literal
long-form field. -/
theorem directiveField_good {c : Char} {f : Field} (h : directiveField c = some f) :
    ¬ f.isLit ∧ f.literalSound ∧ f.longFormOnly := by
  unfold directiveField at h
  split_ifs at h <;> injection h with h <;> subst h <;>
    simp [Field.isLit, Field.literalSound, Field.longFormOnly]

/-- On success, the field returned by directive parsing is either the one
already recorded in `bit` or one drawn from the directive table. -/
theorem parse_a_thing_ok_field (op : Nat) (bit0 : Option Field) (l0 : List (Nat × Char)) :
    ∀ f rest, parse_a_thing op bit0 l0 = .ok (f, rest) →
      bit0 = some f ∨ ∃ c, directiveField c = some f := by
  induction bit0, l0 using parse_a_thing.induct op with
  | case1 x => intro f rest h; simp [parse_a_thing] at h
  | case2 bit pos => intro f rest h; simp [parse_a_thing] at h
  | case3 bit pos pos2 c2 rest2 bitlet hdir ih =>
    intro f rest h
    simp only [parse_a_thing, hdir, reduceIte] at h
    rcases ih f rest h with h1 | h1
    · injection h1 with h1
      subst h1
      exact .inr ⟨c2, hdir⟩
    · exact .inr h1
  | case4 bit pos pos2 c2 rest2 hdir =>
    intro f rest h
    simp only [parse_a_thing, hdir, reduceIte] at h
    exact absurd h (by simp)
  | case5 pos rest1 bitlet hne =>
    intro f rest h
    rw [parse_a_thing_cons] at h
    simp at h
    rcases h with ⟨rfl, rfl⟩
    exact .inl rfl
  | case6 pos rest1 hne =>
    intro f rest h
    rw [parse_a_thing_cons] at h
    simp at h
  | case7 bit pos c rest1 hc hbr =>
    intro f rest h
    rw [parse_a_thing_cons, if_neg hc, if_neg hbr] at h
    exact absurd h (by simp)

/-- In any split of `char_indices`, every offset of the front part is
smaller than every offset of the back part. -/
theorem charIndices_decomp_lt (input : List Char) {A B : List (Nat × Char)}
    (hd : charIndices input = A ++ B) :
    ∀ x ∈ A, ∀ y ∈ B, x.1 < y.1 := by
  have hp := charIndices_pairwise input
  rw [hd] at hp
  exact fun x hx y hy => (List.pairwise_append.mp hp).2.2 x hx y hy

/-- In any split of `char_indices`, the back part itself has strictly
increasing offsets. -/
theorem charIndices_decomp_pairwise (input : List Char) {A B : List (Nat × Char)}
    (hd : charIndices input = A ++ B) :
    B.Pairwise (fun a b => a.1 < b.1) := by
  have hp := charIndices_pairwise input
  rw [hd] at hp
  exact (List.pairwise_append.mp hp).2.1

/-- Closing a pending literal run at end-of-input: slicing from the anchor
offset returns exactly the characters of the run. -/
theorem closeLiteral_from (input : List Char) (p : Nat) (A M : List (Nat × Char)) (c0 : Char)
    (hd : charIndices input = A ++ ((p, c0) :: M)) :
    byteSliceFrom input p = c0 :: M.map Prod.snd := by
  have h := byteSliceFrom_of_decomp input A ((p, c0) :: M) p hd ?_ ?_
  · simpa using h
  · intro x hx
    exact charIndices_decomp_lt input hd x hx (p, c0) (by simp)
  · intro x hx
    have hB := charIndices_decomp_pairwise input hd
    rcases List.mem_cons.mp hx with rfl | hm
    · exact le_refl p
    · have := (List.pairwise_cons.mp hB).1 x hm
      omega

/-- Closing a pending literal run at an opening brace: slicing between the
anchor offset and the brace offset returns exactly the characters of the
run. -/
theorem closeLiteral_mid (input : List Char) (p q : Nat) (A M R : List (Nat × Char))
    (c0 cq : Char)
    (hd : charIndices input = A ++ ((p, c0) :: M) ++ ((q, cq) :: R)) :
    byteSlice input p q = c0 :: M.map Prod.snd := by
  have hd' : charIndices input = A ++ (((p, c0) :: M) ++ ((q, cq) :: R)) := by
    rw [hd, List.append_assoc]
  have h := byteSlice_of_decomp input A ((p, c0) :: M) ((q, cq) :: R) p q hd ?_ ?_ ?_
  · simpa using h
  · intro x hx
    exact charIndices_decomp_lt input hd' x hx (p, c0) (by simp)
  · intro x hx
    have hB := charIndices_decomp_pairwise input hd'
    have hcross := (List.pairwise_append.mp hB).2.2
    have hmid := (List.pairwise_append.mp hB).1
    constructor
    · rcases List.mem_cons.mp hx with rfl | hm
      · exact le_refl p
      · have := (List.pairwise_cons.mp hmid).1 x hm
        omega
    · exact hcross x hx (q, cq) (by simp)
  · intro x hx
    have hB := charIndices_decomp_pairwise input hd'
    have hlast := (List.pairwise_append.mp hB).2.1
    rcases List.mem_cons.mp hx with rfl | hm
    · exact le_refl q
    · have := (List.pairwise_cons.mp hlast).1 x hm
      omega

/-- A pending literal run contains no brace characters. -/
theorem braces_not_mem {p : Nat} {c0 : Char} {M : List (Nat × Char)}
    (hch : ∀ x ∈ (p, c0) :: M, x.2 ≠ '{' ∧ x.2 ≠ '}') :
    '{' ∉ c0 :: M.map Prod.snd ∧ '}' ∉ c0 :: M.map Prod.snd := by
  have hall : ∀ ch ∈ c0 :: M.map Prod.snd, ch ≠ '{' ∧ ch ≠ '}' := by
    intro ch hmem
    rcases List.mem_cons.mp hmem with rfl | hc
    · simpa using hch (p, ch) (by simp)
    · obtain ⟨x, hx, rfl⟩ := List.mem_map.mp hc
      exact hch x (List.mem_cons_of_mem _ hx)
  constructor
  · intro hmem
    exact (hall _ hmem).1 rfl
  · intro hmem
    exact (hall _ hmem).2 rfl

/-- The end-of-input step of the parser invariant. -/
theorem pfs_inv_nil (input : List Char) (anchor : Option Nat) (fields out : List Field)
    (hao : anchorOk input anchor [])
    (h : parse_format_string input anchor fields [] = .ok out) :
    ∃ done, out = fields ++ done
      ∧ (∀ f ∈ done, f.literalSound ∧ f.longFormOnly)
      ∧ noAdjacentLiterals done := by
  cases anchor with
  | none =>
    rw [parse_format_string.eq_2] at h
    simp only [Except.ok.injEq] at h
    subst h
    exact ⟨[], by simp, by simp, List.chain'_nil⟩
  | some p =>
    obtain ⟨A, c0, M, hd, hch⟩ := hao
    rw [parse_format_string.eq_1] at h
    simp only [Except.ok.injEq] at h
    subst h
    have hs : byteSliceFrom input p = c0 :: M.map Prod.snd :=
      closeLiteral_from input p A M c0 (by simpa using hd)
    refine ⟨[Field.Literal (byteSliceFrom input p)], rfl, ?_, ?_⟩
    · intro f hf
      rcases List.mem_singleton.mp hf with rfl
      obtain ⟨hnb1, hnb2⟩ := braces_not_mem hch
      rw [hs]
      exact ⟨⟨by simp, hnb1, hnb2⟩, trivial⟩
    · exact List.chain'_singleton _

/-- The main parser invariant, by induction on the length of the
unprocessed stream: under the anchor invariant, a successful run appends a
block of sound long-form fields in which no two adjacent fields are
literals. -/
theorem pfs_inv_aux (input : List Char) (n : Nat) :
    ∀ (l : List (Nat × Char)), l.length ≤ n →
    ∀ (anchor : Option Nat) (fields out : List Field),
      anchorOk input anchor l →
      parse_format_string input anchor fields l = .ok out →
      ∃ done, out = fields ++ done
        ∧ (∀ f ∈ done, f.literalSound ∧ f.longFormOnly)
        ∧ noAdjacentLiterals done := by
  induction n with
  | zero =>
    intro l hl anchor fields out hao h
    have hnil : l = [] := List.length_eq_zero.mp (Nat.le_zero.mp hl)
    subst hnil
    exact pfs_inv_nil input anchor fields out hao h
  | succ n ih =>
    intro l hl anchor fields out hao h
    match l, hl, hao, h with
    | [], _, hao, h => exact pfs_inv_nil input anchor fields out hao h
    | (new_pos, c) :: rest, hl, hao, h =>
      by_cases hbrace : c = '{'
      · subst hbrace
        cases anchor with
        | none =>
          obtain ⟨A, hd⟩ := hao
          rw [parse_format_string.eq_4, if_pos rfl] at h
          split at h
          · exact absurd h (by simp)
          · rename_i field rest2 heq
            obtain ⟨hlen, hsuf⟩ := parse_a_thing_rest new_pos none rest field rest2 heq
            obtain ⟨consumed, hcons⟩ := hsuf
            have hao2 : anchorOk input none rest2 :=
              ⟨A ++ (new_pos, '{') :: consumed, by rw [hd, ← hcons]; simp⟩
            obtain ⟨done2, hout, hgood, hchain⟩ :=
              ih rest2 (by simp at hl; omega) none (fields ++ [field]) out hao2 h
            have hfgood : ¬ field.isLit ∧ field.literalSound ∧ field.longFormOnly := by
              rcases parse_a_thing_ok_field new_pos none rest field rest2 heq with h1 | ⟨c', h1⟩
              · exact absurd h1 (by simp)
              · exact directiveField_good h1
            refine ⟨field :: done2, by simpa using hout, ?_, ?_⟩
            · intro f hf
              rcases List.mem_cons.mp hf with rfl | hf
              · exact hfgood.2
              · exact hgood f hf
            · exact List.chain'_cons'.mpr ⟨fun y _ hc => hfgood.1 hc.1, hchain⟩
        | some p =>
          obtain ⟨A, c0, M, hd, hch⟩ := hao
          rw [parse_format_string.eq_3, if_pos rfl] at h
          split at h
          · exact absurd h (by simp)
          · rename_i field rest2 heq
            obtain ⟨hlen, hsuf⟩ := parse_a_thing_rest new_pos none rest field rest2 heq
            obtain ⟨consumed, hcons⟩ := hsuf
            have hslice : byteSlice input p new_pos = c0 :: M.map Prod.snd :=
              closeLiteral_mid input p new_pos A M rest c0 '{' hd
            have hao2 : anchorOk input none rest2 :=
              ⟨(A ++ (p, c0) :: M) ++ (new_pos, '{') :: consumed, by
                rw [hd, ← hcons]; simp⟩
            obtain ⟨done2, hout, hgood, hchain⟩ :=
              ih rest2 (by simp at hl; omega) none
                ((fields ++ [Field.Literal (byteSlice input p new_pos)]) ++ [field]) out hao2 h
            have hfgood : ¬ field.isLit ∧ field.literalSound ∧ field.longFormOnly := by
              rcases parse_a_thing_ok_field new_pos none rest field rest2 heq with h1 | ⟨c', h1⟩
              · exact absurd h1 (by simp)
              · exact directiveField_good h1
            obtain ⟨hnb1, hnb2⟩ := braces_not_mem hch
            refine ⟨Field.Literal (byteSlice input p new_pos) :: field :: done2,
              by simpa using hout, ?_, ?_⟩
            · intro f hf
              rcases List.mem_cons.mp hf with rfl | hf
              · rw [hslice]
                exact ⟨⟨by simp, hnb1, hnb2⟩, trivial⟩
              · rcases List.mem_cons.mp hf with rfl | hf
                · exact hfgood.2
                · exact hgood f hf
            · refine List.chain'_cons'.mpr ⟨?_,
                List.chain'_cons'.mpr ⟨fun y _ hc => hfgood.1 hc.1, hchain⟩⟩
              intro y hy hc
              simp only [List.head?_cons, Option.mem_def, Option.some.injEq] at hy
              subst hy
              exact hfgood.1 hc.2
      · by_cases hclose : c = '}'
        · subst hclose
          cases anchor with
          | none =>
            rw [parse_format_string.eq_4, if_neg (by decide), if_pos rfl] at h
            exact absurd h (by simp)
          | some p =>
            rw [parse_format_string.eq_3, if_neg (by decide), if_pos rfl] at h
            exact absurd h (by simp)
        · cases anchor with
          | none =>
            obtain ⟨A, hd⟩ := hao
            rw [parse_format_string.eq_4, if_neg hbrace, if_neg hclose] at h
            simp only [Option.getD_none] at h
            have hao2 : anchorOk input (some new_pos) rest :=
              ⟨A, c, [], by simpa using hd, by
                intro x hx
                rcases List.mem_singleton.mp hx with rfl
                exact ⟨hbrace, hclose⟩⟩
            exact ih rest (by simp at hl; omega) (some new_pos) fields out hao2 h
          | some p =>
            obtain ⟨A, c0, M, hd, hch⟩ := hao
            rw [parse_format_string.eq_3, if_neg hbrace, if_neg hclose] at h
            simp only [Option.getD_some] at h
            have hao2 : anchorOk input (some p) rest :=
              ⟨A, c0, M ++ [(new_pos, c)], by rw [hd]; simp, by
                intro x hx
                rcases List.mem_cons.mp hx with rfl | hx
                · exact hch _ (by simp)
                · rcases List.mem_append.mp hx with hx | hx
                  · exact hch _ (List.mem_cons_of_mem _ hx)
                  · rcases List.mem_singleton.mp hx with rfl
                    exact ⟨hbrace, hclose⟩⟩
            exact ih rest (by simp at hl; omega) (some p) fields out hao2 h

/-- Specialization of the invariant to a whole parse: every parsed field
sequence consists of sound long-form fields with no two adjacent
literals. -/
theorem parse_fields_sound (input : List Char) (df : DateFormat)
    (h : DateFormat.parse input = .ok df) :
    (∀ f ∈ df.fields, f.literalSound ∧ f.longFormOnly)
      ∧ noAdjacentLiterals df.fields := by
  unfold DateFormat.parse at h
  split at h
  · exact absurd h (by simp)
  · rename_i fields heq
    simp only [Except.ok.injEq] at h
    subst h
    obtain ⟨done, hout, hgood, hchain⟩ :=
      pfs_inv_aux input (charIndices input).length (charIndices input) (le_refl _)
        none [] fields ⟨[], by simp⟩ heq
    simp only [List.nil_append] at hout
    subst hout
    exact ⟨hgood, hchain⟩

/-- A pending literal run is flushed unchanged by a brace-free tail: the
parser scans to end-of-input and closes the run with a slice from the
anchor. -/
theorem pfs_literal_run (input : List Char) (p : Nat) :
    ∀ (l : List (Nat × Char)) (fields : List Field),
      (∀ x ∈ l, x.2 ≠ '{' ∧ x.2 ≠ '}') →
      parse_format_string input (some p) fields l
        = .ok (fields ++ [Field.Literal (byteSliceFrom input p)]) := by
  intro l
  induction l with
  | nil =>
    intro fields _
    rw [parse_format_string.eq_1]
  | cons x xs ih =>
    intro fields hx
    obtain ⟨x1, x2⟩ := x
    have h1 : x2 ≠ '{' := (hx (x1, x2) (by simp)).1
    have h2 : x2 ≠ '}' := (hx (x1, x2) (by simp)).2
    rw [parse_format_string.eq_3, if_neg h1, if_neg h2]
    simp only [Option.getD_some]
    exact ih fields (fun y hy => hx y (List.mem_cons_of_mem _ hy))

/-- Every character of the index stream is a character of the input. -/
theorem mem_charIndicesFrom_snd {x : Nat × Char} {s : List Char} {n : Nat}
    (hx : x ∈ charIndicesFrom n s) : x.2 ∈ s := by
  have h := charIndicesFrom_map_snd n s
  rw [← h]
  exact List.mem_map_of_mem Prod.snd hx

/-- Unfolding of the success step of directive parsing at a closing
brace. -/
theorem parse_a_thing_close (op p : Nat) (b : Field) (rest : List (Nat × Char)) :
    parse_a_thing op (some b) ((p, '}') :: rest) = .ok (b, rest) := by
  rw [parse_a_thing_cons]
  simp

/-- Unfolding of a colon-plus-kind group step of directive parsing. -/
theorem parse_a_thing_colon (op p1 p2 : Nat) (bit : Option Field) (k : Char) (f : Field)
    (rest : List (Nat × Char)) (hk : directiveField k = some f) :
    parse_a_thing op bit ((p1, ':') :: (p2, k) :: rest)
      = parse_a_thing op (some f) rest := by
  rw [parse_a_thing_cons, if_pos rfl]
  simp only [hk]

/-- C1: each directive-kind character parses to its single corresponding
field (`Y` to `Year`, `y` to `YearOfCentury`, `M` to `MonthName true`, `D`
to `Day`, `E` to `WeekdayName true`), and a multi-directive template
parses to the expected five-field sequence. -/
theorem claim_C1 :
    DateFormat.parse ("\x7b:Y\x7d".data) = .ok { fields := [Field.Year] }
    ∧ DateFormat.parse ("\x7b:y\x7d".data) = .ok { fields := [Field.YearOfCentury] }
    ∧ DateFormat.parse ("\x7b:M\x7d".data) = .ok { fields := [Field.MonthName true] }
    ∧ DateFormat.parse ("\x7b:D\x7d".data) = .ok { fields := [Field.Day] }
    ∧ DateFormat.parse ("\x7b:E\x7d".data) = .ok { fields := [Field.WeekdayName true] }
    ∧ DateFormat.parse ("\x7b:Y\x7d-\x7b:M\x7d-\x7b:D\x7d".data)
        = .ok { fields := [Field.Year, Field.Literal ['-'], Field.MonthName true,
                           Field.Literal ['-'], Field.Day] } := by
  refine ⟨?_, ?_, ?_, ?_, ?_, ?_⟩ <;>
    simp [DateFormat.parse, parse_format_string, parse_a_thing, charIndices,
      charIndicesFrom, byteSlice, byteSliceFrom, directiveField] <;> decide

/-- C2: the six positioned-error cases, with the exact error variant,
offending character, after-colon flag and byte offset. -/
theorem claim_C2 :
    DateFormat.parse ("\x7b\x7d".data) = .error (.MissingField 0)
    ∧ DateFormat.parse ("\x7b7\x7d".data) = .error (.InvalidChar '7' false 1)
    ∧ DateFormat.parse ("\x7b:7\x7d".data) = .error (.InvalidChar '7' true 2)
    ∧ DateFormat.parse ("\x7b".data) = .error (.OpenCurlyBrace 0)
    ∧ DateFormat.parse ("\x7d".data) = .error (.CloseCurlyBrace 0)
    ∧ DateFormat.parse ("This is a test: \x7d".data) = .error (.CloseCurlyBrace 16) := by
  refine ⟨?_, ?_, ?_, ?_, ?_, ?_⟩ <;>
    simp [DateFormat.parse, parse_format_string, parse_a_thing, charIndices,
      charIndicesFrom, byteSlice, byteSliceFrom, directiveField] <;> decide

/-- C3: rendering is the left-to-right concatenation of each field's
individual rendering (`Field.format`), with each field rendered as the
source prescribes; equivalently `DateFormat.format` is a monoid
homomorphism from field sequences to strings. -/
theorem claim_C3 :
    ∀ (when : LocalDate) (fields l1 l2 : List Field) (s : List Char),
      DateFormat.format { fields := fields } when
          = (fields.map (fun f => f.format when)).flatten
      ∧ Field.format (.Literal s) when = s
      ∧ Field.format .Year when = (toString when.year).data
      ∧ Field.format .YearOfCentury when = (toString when.year_of_century).data
      ∧ Field.format (.MonthName true) when = long_month_name when.month
      ∧ Field.format (.MonthName false) when = short_month_name when.month
      ∧ Field.format .Day when = (toString when.day).data
      ∧ Field.format (.WeekdayName true) when = long_day_name when.weekday
      ∧ Field.format (.WeekdayName false) when = short_day_name when.weekday
      ∧ DateFormat.format { fields := ([] : List Field) } when = []
      ∧ DateFormat.format { fields := l1 ++ l2 } when
          = DateFormat.format { fields := l1 } when
            ++ DateFormat.format { fields := l2 } when := by
  intro when fields l1 l2 s
  refine ⟨format_foldl_eq when fields [], rfl, rfl, rfl, rfl, rfl, rfl, rfl, rfl, rfl, ?_⟩
  simp [DateFormat.format, format_foldl_eq]

/-- C7: rendering never fails — every month and weekday hits an entry of
the fixed 12- and 7-entry name tables (long and short forms), and
`DateFormat.format` returns a string for every format and every valid
date. -/
theorem claim_C7 :
    (∀ m : Month, ∃ e ∈ monthNameTable,
        e.1 = m ∧ long_month_name m = e.2.1 ∧ short_month_name m = e.2.2)
    ∧ (∀ d : Weekday, ∃ e ∈ dayNameTable,
        e.1 = d ∧ long_day_name d = e.2.1 ∧ short_day_name d = e.2.2)
    ∧ (∀ (df : DateFormat) (when : LocalDate), ∃ s : List Char,
        DateFormat.format df when = s) := by
  refine ⟨?_, ?_, ?_⟩
  · intro m; cases m <;> decide
  · intro d; cases d <;> decide
  · intro df when; exact ⟨_, rfl⟩

/-- C8: parsing is total — every input yields exactly one of a parsed
format or an error, and the empty input parses to the empty field
sequence. -/
theorem claim_C8 :
    ∀ input : List Char,
      ((∃ df, DateFormat.parse input = .ok df)
        ∨ (∃ e, DateFormat.parse input = .error e))
      ∧ ¬ ((∃ df, DateFormat.parse input = .ok df)
        ∧ (∃ e, DateFormat.parse input = .error e))
      ∧ DateFormat.parse [] = .ok { fields := ([] : List Field) } := by
  intro input
  refine ⟨?_, ?_, ?_⟩
  · cases h : DateFormat.parse input
    · exact .inr ⟨_, rfl⟩
    · exact .inl ⟨_, rfl⟩
  · rintro ⟨⟨df, h1⟩, ⟨e, h2⟩⟩
    rw [h1] at h2
    exact Except.noConfusion h2
  · simp [DateFormat.parse, parse_format_string, charIndices, charIndicesFrom]

/-- C4: on every successful parse, each literal field is non-empty and
brace-free, and no two adjacent fields are both literals; the bracketing
example parses to exactly the coalesced three-field sequence. -/
theorem claim_C4 :
    (∀ (input : List Char) (df : DateFormat), DateFormat.parse input = .ok df →
      (∀ f ∈ df.fields, f.literalSound) ∧ noAdjacentLiterals df.fields)
    ∧ DateFormat.parse ("(\x7b:D\x7d)".data)
        = .ok { fields := [Field.Literal ['('], Field.Day, Field.Literal [')']] } := by
  constructor
  · intro input df h
    obtain ⟨hgood, hchain⟩ := parse_fields_sound input df h
    exact ⟨fun f hf => (hgood f hf).1, hchain⟩
  · simp [DateFormat.parse, parse_format_string, parse_a_thing, charIndices,
      charIndicesFrom, byteSlice, byteSliceFrom, directiveField] <;> decide

/-- C4 witness: the invariant instantiated at the parse of the bracketing
example. -/
theorem claim_C4_witness :
    (∀ f ∈ ({ fields := [Field.Literal ['('], Field.Day, Field.Literal [')']] }
        : DateFormat).fields, f.literalSound)
    ∧ noAdjacentLiterals ({ fields := [Field.Literal ['('], Field.Day,
        Field.Literal [')']] } : DateFormat).fields :=
  claim_C4.1 ("(\x7b:D\x7d)".data) _ claim_C4.2

/-- C9: the grammar only produces long-form name fields — every
`MonthName` or `WeekdayName` field of a successful parse carries the flag
`true`; the short forms can only arise by direct construction. -/
theorem claim_C9 :
    ∀ (input : List Char) (df : DateFormat), DateFormat.parse input = .ok df →
      ∀ f ∈ df.fields, f.longFormOnly := by
  intro input df h f hf
  exact ((parse_fields_sound input df h).1 f hf).2

/-- C9 witness: the long-form invariant at the parse of a month
directive. -/
theorem claim_C9_witness :
    Field.longFormOnly (Field.MonthName true) :=
  claim_C9 ("\x7b:M\x7d".data) { fields := [Field.MonthName true] }
    (by
      simp [DateFormat.parse, parse_format_string, parse_a_thing, charIndices,
        charIndicesFrom, byteSlice, byteSliceFrom, directiveField] <;> decide)
    (Field.MonthName true) (by simp)

/-- C6 counterexample: an input containing no opening brace on which parse
nevertheless fails — a bare closing brace is always an error, refuting the
claim as stated (and the empty string parses to an empty sequence, not a
literal). -/
theorem claim_C6_counterexample :
    '{' ∉ ['a', '}']
    ∧ DateFormat.parse ['a', '}'] = .error (.CloseCurlyBrace 1) := by
  constructor
  · decide
  · simp [DateFormat.parse, parse_format_string, parse_a_thing, charIndices,
      charIndicesFrom, byteSlice, byteSliceFrom, directiveField] <;> decide

/-- C6 (amended): for every non-empty input containing neither `{` nor
`}`, parsing yields the single whole-input literal, and formatting that
result against any date reproduces the input exactly. -/
theorem claim_C6 :
    ∀ (input : List Char) (when : LocalDate),
      input ≠ [] → '{' ∉ input → '}' ∉ input →
      DateFormat.parse input = .ok { fields := [Field.Literal input] }
      ∧ DateFormat.format { fields := [Field.Literal input] } when = input := by
  intro input when hne hbr1 hbr2
  constructor
  · match input, hne, hbr1, hbr2 with
    | c :: cs, _, hbr1, hbr2 =>
      unfold DateFormat.parse
      have hstep : charIndices (c :: cs) = (0, c) :: charIndicesFrom (0 + c.utf8Size) cs := rfl
      have hc1 : c ≠ '{' := fun hc => hbr1 (hc ▸ List.mem_cons_self c cs)
      have hc2 : c ≠ '}' := fun hc => hbr2 (hc ▸ List.mem_cons_self c cs)
      rw [hstep, parse_format_string.eq_4, if_neg hc1, if_neg hc2]
      simp only [Option.getD_none]
      rw [pfs_literal_run (c :: cs) 0 (charIndicesFrom (0 + c.utf8Size) cs) [] ?_]
      · rw [byteSliceFrom_zero]
        simp
      · intro x hx
        have hmem : x.2 ∈ cs := mem_charIndicesFrom_snd hx
        exact ⟨fun hc => hbr1 (hc ▸ List.mem_cons_of_mem c hmem),
               fun hc => hbr2 (hc ▸ List.mem_cons_of_mem c hmem)⟩
  · simp [DateFormat.format, Field.format]

/-- C6 witness: the amended literal-passthrough at a concrete brace-free
input and date. -/
theorem claim_C6_witness :
    DateFormat.parse ['h', 'i'] = .ok { fields := [Field.Literal ['h', 'i']] }
    ∧ DateFormat.format { fields := [Field.Literal ['h', 'i']] }
        { year := 2024, year_of_century := 24, month := Month.March, day := 5,
          weekday := Weekday.Tuesday }
      = ['h', 'i'] :=
  claim_C6 ['h', 'i'] _ (by decide) (by decide) (by decide)

/-- C5 counterexample: after the directive-kind letter, a second colon
group is tolerated — this input parses successfully, refuting the claim
that only `}` or end-of-input is accepted at that position for any
input. -/
theorem claim_C5_counterexample :
    DateFormat.parse ("\x7b:D:Y\x7d".data) = .ok { fields := [Field.Year] } := by
  simp [DateFormat.parse, parse_format_string, parse_a_thing, charIndices,
    charIndicesFrom, byteSlice, byteSliceFrom, directiveField] <;> decide

/-- C5 (amended): with a directive kind recorded, the next character must
be `}` (closing the directive with that field), `:` (starting another
kind group), or end-of-input (yielding `OpenCurlyBrace` at the opening
position); any other character `c` at position `pos` yields
`InvalidChar(c, false, pos)`. -/
theorem claim_C5 :
    ∀ (op pos : Nat) (b : Field) (c : Char) (rest : List (Nat × Char)),
      parse_a_thing op (some b) [] = .error (.OpenCurlyBrace op)
      ∧ parse_a_thing op (some b) ((pos, '}') :: rest) = .ok (b, rest)
      ∧ (c ≠ ':' → c ≠ '}' →
          parse_a_thing op (some b) ((pos, c) :: rest)
            = .error (.InvalidChar c false pos)) := by
  intro op pos b c rest
  refine ⟨rfl, parse_a_thing_close op pos b rest, ?_⟩
  intro h1 h2
  rw [parse_a_thing_cons, if_neg h1, if_neg h2]

/-- C5 witness: the amended after-kind behavior at concrete inputs. -/
theorem claim_C5_witness :
    parse_a_thing 0 (some Field.Day) [(3, 'x')] = .error (.InvalidChar 'x' false 3)
    ∧ parse_a_thing 0 (some Field.Day) [(3, '}')] = .ok (Field.Day, []) :=
  ⟨(claim_C5 0 3 Field.Day 'x' []).2.2 (by decide) (by decide),
   (claim_C5 0 3 Field.Day 'x' [(3, '}')].tail).2.1⟩

/-- C10: several colon-plus-kind groups inside one brace pair are accepted
with last-wins semantics — the directive parser returns the field named by
the last group — and the two-group example parses to exactly `[Day]`. -/
theorem claim_C10 :
    (∀ (op q : Nat) (bit : Option Field) (g : Nat × Nat × Char)
        (gs : List (Nat × Nat × Char)) (tail : List (Nat × Char)) (f : Field),
      (∀ g2 ∈ g :: gs, (directiveField g2.2.2).isSome) →
      directiveField ((g :: gs).getLast (List.cons_ne_nil g gs)).2.2 = some f →
      parse_a_thing op bit (groupsEnc (g :: gs) ++ (q, '}') :: tail) = .ok (f, tail))
    ∧ DateFormat.parse ("\x7b:Y:D\x7d".data) = .ok { fields := [Field.Day] } := by
  constructor
  · intro op q bit g gs
    induction gs generalizing g bit with
    | nil =>
      intro tail f hall hlast
      obtain ⟨a, b, k⟩ := g
      simp only [List.getLast_singleton] at hlast
      have henc : groupsEnc [(a, b, k)] ++ (q, '}') :: tail
          = (a, ':') :: (b, k) :: (q, '}') :: tail := rfl
      rw [henc, parse_a_thing_colon op a b bit k f _ hlast, parse_a_thing_close]
    | cons g2 gs2 ih =>
      intro tail f hall hlast
      obtain ⟨a, b, k⟩ := g
      obtain ⟨fk, hfk⟩ := Option.isSome_iff_exists.mp (hall (a, b, k) (by simp))
      have henc : groupsEnc ((a, b, k) :: g2 :: gs2) ++ (q, '}') :: tail
          = (a, ':') :: (b, k) :: (groupsEnc (g2 :: gs2) ++ (q, '}') :: tail) := by
        simp [groupsEnc]
      rw [henc, parse_a_thing_colon op a b bit k fk _ hfk]
      refine ih (some fk) g2 tail f (fun g3 hg3 => hall g3 (List.mem_cons_of_mem _ hg3)) ?_
      rw [← hlast, List.getLast_cons (List.cons_ne_nil g2 gs2)]
  · simp [DateFormat.parse, parse_format_string, parse_a_thing, charIndices,
      charIndicesFrom, byteSlice, byteSliceFrom, directiveField] <;> decide

/-- C10 witness: last-wins at a concrete two-group directive body. -/
theorem claim_C10_witness :
    parse_a_thing 0 none (groupsEnc [(1, 2, 'Y'), (3, 4, 'D')] ++ (5, '}') :: [])
      = .ok (Field.Day, []) :=
  claim_C10.1 0 5 none (1, 2, 'Y') [(3, 4, 'D')] [] Field.Day (by decide) (by decide)

end Datetime
